import Mathlib

/-!
A verification development for playlist-dl.py: the entry store and listing
importer (Playlist.populate, Playlist.get_entry), the title splitter
(split_artist), the metadata reconciler (update_m4a_meta together with the
trkn normalization in m4a_atoms), the filename matcher of do_track_meta, and
the listing-file probing loop of do_dl_listing.

Python strings are modelled as lists of characters, Python dicts keyed by
strings as association lists with overwrite-in-place semantics, and the
external tools (youtube-dl, AtomicParsley) as parameters of the functions
that invoke them.
-/

/-- A Python string, modelled as its list of characters. -/
abbrev Str := List Char

/-- The character class removed by Python str.strip(): space, tab, newline,
carriage return, vertical tab, form feed. -/
def isPySpace (c : Char) : Bool :=
  c == ' ' || c == '\t' || c == '\n' || c == '\r' || c == '\x0b' || c == '\x0c'

/-- Python s.strip(): drop leading and trailing whitespace. -/
def strip (s : Str) : Str :=
  ((s.dropWhile isPySpace).reverse.dropWhile isPySpace).reverse

/-- Whether the first argument is an initial segment of the second. -/
def strStarts : Str → Str → Bool
  | [], _ => true
  | _ :: _, [] => false
  | p :: ps, c :: cs => p == c && strStarts ps cs

/-- Python s.split(sep, 1) for a nonempty sep: the pair of pieces around the
first occurrence of sep in s, or none when sep does not occur (in which case
Python returns the one-element list [s]). -/
def splitOnce (sep : Str) : Str → Option (Str × Str)
  | [] => none
  | c :: rest =>
    if strStarts sep (c :: rest) then some ([], (c :: rest).drop sep.length)
    else (splitOnce sep rest).map (fun p => (c :: p.1, p.2))

/-- split_artist (playlist-dl.py lines 158-168): split a raw title into
(artist, song) on the first " - ", falling back to a bare "-"; when neither
separator occurs, warn and return (None, s) with s unchanged. -/
def split_artist (s : Str) : Option Str × Option Str :=
  match splitOnce (' ' :: '-' :: ' ' :: []) s with
  | some (a, b) => (some (strip a), some (strip b))
  | none =>
    match splitOnce ('-' :: []) s with
    | some (a, b) => (some (strip a), some (strip b))
    | none => (none, some s)

/-- Decimal digit characters of n, most significant first; fuel bounds the
recursion and any fuel at least n is enough. -/
def natStrAux : Nat → Nat → Str
  | 0, _ => []
  | _ + 1, 0 => []
  | fuel + 1, n + 1 => natStrAux fuel ((n + 1) / 10) ++ [Nat.digitChar ((n + 1) % 10)]

/-- Python "%d" % n. -/
def natStr (n : Nat) : Str :=
  if n = 0 then ['0'] else natStrAux n n

/-- Value of a decimal digit string, used to invert natStr. -/
def strVal : Str → Nat
  | [] => 0
  | c :: rest => (c.toNat - 48) * 10 ^ rest.length + strVal rest

/-- The computed target track number "%d/%d" % (meta["pos"], len(pl))
(update_m4a_meta line 171). -/
def trackStr (pos total : Nat) : Str :=
  natStr pos ++ '/' :: natStr total

/-- Python "%03d" % n: the decimal digits of n left-padded with zeros to at
least three characters. -/
def pad3 (n : Nat) : Str :=
  List.replicate (3 - (natStr n).length) '0' ++ natStr n

/-- The listing snapshot filename "listing.%03d.txt" % n (do_dl_listing
line 248). -/
def listingName (n : Nat) : Str :=
  "listing.".toList ++ pad3 n ++ ".txt".toList

/-- The probing loop of do_dl_listing (lines 246-253): starting from attempt,
advance while the name exists on disk, and raise ("Ran out of names", here
none) as soon as the counter passes 999.  ex tells which listing numbers
already exist; fuel bounds the recursion and is never exhausted when the
loop is entered at attempt 0 with fuel 1000. -/
def findSlotAux (ex : Nat → Bool) : Nat → Nat → Option Nat
  | 0, _ => none
  | fuel + 1, attempt =>
    if ex attempt then
      if attempt + 1 > 999 then none
      else findSlotAux ex fuel (attempt + 1)
    else some attempt

/-- The listing number do_dl_listing settles on, or none when it raises
after exhausting 000-999. -/
def find_slot (ex : Nat → Bool) : Option Nat :=
  findSlotAux ex 1000 0

/-- The five well-known tag atoms touched by update_m4a_meta. -/
inductive AField
  | genre
  | album
  | title
  | artist
  | trkn
deriving DecidableEq, Repr

/-- The current on-disk tag snapshot of one m4a file, projected to the five
atoms the reconciler ever reads or writes ("(c)gen", "(c)alb", "(c)nam",
"(c)ART", "trkn"); none means the atom is absent from the file. -/
structure Atoms where
  genre : Option Str
  album : Option Str
  title : Option Str
  artist : Option Str
  trkn : Option Str
deriving DecidableEq, Repr

/-- Atom lookup by field. -/
def Atoms.get (a : Atoms) : AField → Option Str
  | AField.genre => a.genre
  | AField.album => a.album
  | AField.title => a.title
  | AField.artist => a.artist
  | AField.trkn => a.trkn

/-- Atom assignment by field. -/
def Atoms.set (a : Atoms) : AField → Str → Atoms
  | AField.genre, v => { a with genre := some v }
  | AField.album, v => { a with album := some v }
  | AField.title, v => { a with title := some v }
  | AField.artist, v => { a with artist := some v }
  | AField.trkn, v => { a with trkn := some v }

/-- The two Playlist fields the reconciler consults (Playlist.__init__
defaults both to None). -/
structure PlaylistCfg where
  name : Option Str
  genre : Option Str
deriving DecidableEq, Repr

/-- One guarded field update of update_m4a_meta (lines 183-191): emit the
change only when the atom is currently absent and the incoming value is not
None.  All four of the genre, album, title and artist clauses have this
shape. -/
def optChange (fld : AField) (current incoming : Option Str) : List (AField × Str) :=
  match current, incoming with
  | none, some v => [(fld, v)]
  | _, _ => []

/-- The track-number clause of update_m4a_meta (lines 193-195): written
whenever the target differs from the current value, with an absent atom read
as "" by current_atoms.get("trkn", ""). -/
def trknChange (trackno : Str) (atoms : Atoms) : List (AField × Str) :=
  if trackno ≠ atoms.trkn.getD [] then [(AField.trkn, trackno)] else []

/-- The change-set computation of update_m4a_meta (lines 170-195): the tag
fields AtomicParsley will be asked to set, in the order the update command is
assembled (genre, album, title, artist, track number). -/
def update_changes (pl : PlaylistCfg) (pos total : Nat) (title : Str) (atoms : Atoms) :
    List (AField × Str) :=
  let trackno := trackStr pos total
  let sp := split_artist title
  optChange AField.genre atoms.genre pl.genre ++
    optChange AField.album atoms.album pl.name ++
    optChange AField.title atoms.title sp.2 ++
    optChange AField.artist atoms.artist sp.1 ++
    trknChange trackno atoms

/-- The effect on the tag snapshot of AtomicParsley applying a change set. -/
def applyChanges (atoms : Atoms) (cs : List (AField × Str)) : Atoms :=
  cs.foldl (fun a c => a.set c.1 c.2) atoms

/-- Modelled from the spec: AtomicParsley, the external tag read/write
service (not part of src/), prints a stored track-number atom "X/Y" in the
textual form "X of Y"; this is its display of one stored trkn value. -/
def apDisplayTrkn (s : Str) : Str :=
  match splitOnce ('/' :: []) s with
  | some (a, b) => a ++ (' ' :: 'o' :: 'f' :: ' ' :: b)
  | none => s

/-- The trkn normalization of m4a_atoms (lines 148-154): turn the reader's
"X of Y" form back into the "X/Y" form used when setting the atom; empty or
unsplittable values pass through unchanged. -/
def trknNormalize (s : Str) : Str :=
  if s = [] then s
  else
    match splitOnce (' ' :: 'o' :: 'f' :: ' ' :: []) s with
    | some (a, b) => a ++ '/' :: b
    | none => s

/-- What m4a_atoms returns for a file whose stored atoms are a: the textual
AtomicParsley output parsed back, with the trkn atom passed through the
"X of Y" display and the normalization above.  The other four atoms are
reproduced verbatim. -/
def readAtoms (a : Atoms) : Atoms :=
  { a with trkn := a.trkn.map (fun t => trknNormalize (apDisplayTrkn t)) }

/-- One raw listing record as fed to Playlist.populate: the fields it
consumes (id and title). -/
structure RawEntry where
  id : Str
  title : Str
deriving DecidableEq, Repr

/-- One stored entry after populate has stamped it with "pos". -/
structure Entry where
  id : Str
  title : Str
  pos : Nat
deriving DecidableEq, Repr

/-- Python dict assignment self.entries[e.id] = e: overwrite in place when
the key is present, append otherwise. -/
def dictInsert (store : List Entry) (e : Entry) : List Entry :=
  if store.any (fun x => x.id == e.id) then
    store.map (fun x => if x.id == e.id then e else x)
  else store ++ [e]

/-- Playlist.get_entry (lines 93-94): self.entries.get(entry_id, None). -/
def get_entry (store : List Entry) (i : Str) : Option Entry :=
  store.find? (fun e => e.id == i)

/-- The loop body of Playlist.populate (lines 96-105): for i, entry in
enumerate(entries): entry["pos"] = i + 1; self.entries[entry["id"]] = entry.
The accumulator k is the number of raw entries already consumed. -/
def populateFrom (store : List Entry) : Nat → List RawEntry → List Entry
  | _, [] => store
  | k, r :: rest => populateFrom (dictInsert store ⟨r.id, r.title, k + 1⟩) (k + 1) rest

/-- Playlist.populate applied to the current store. -/
def populate (store : List Entry) (raws : List RawEntry) : List Entry :=
  populateFrom store 0 raws

/-- The character class of the id capture group in do_track_meta's pattern
"-([-a-zA-Z0-9_]{11})[.]m4a$" (line 229). -/
def idCharOk (c : Char) : Bool :=
  c == '-' || c == '_' || c.isAlphanum

/-- The filename match of do_track_meta (lines 229-234): a hyphen, exactly
eleven characters of the id class, then ".m4a", anchored at the end of the
name; the result is the captured eleven-character id (toks[-2]).  The match
has fixed length 16 and is end-anchored, so it exists precisely when the last
sixteen characters have this shape. -/
def extract_yid (fname : Str) : Option Str :=
  if fname.length < 16 then none
  else
    match fname.drop (fname.length - 16) with
    | '-' :: rest =>
      if (rest.take 11).all idCharOk = true ∧ rest.drop 11 = '.' :: 'm' :: '4' :: 'a' :: [] then
        some (rest.take 11)
      else none
    | _ => none

/-- What do_track_meta does with one local file. -/
inductive TrackAction
  | noId
  | notFound
  | update (e : Entry)
deriving DecidableEq, Repr

/-- One iteration of do_track_meta's loop (lines 227-240): recognize the id
suffix, resolve it through the store, and skip (continue) on either miss. -/
def trackStep (store : List Entry) (f : Str) : Str × TrackAction :=
  match extract_yid f with
  | none => (f, TrackAction.noId)
  | some i =>
    match get_entry store i with
    | none => (f, TrackAction.notFound)
    | some e => (f, TrackAction.update e)

/-- do_track_meta's loop over every local m4a file: each file is routed
through trackStep, and a miss only skips that one file. -/
def track_meta_plan (store : List Entry) (files : List Str) : List (Str × TrackAction) :=
  files.map (trackStep store)

/-- Outcome of one update_m4a_meta run on one file: the final content at the
original path, the content left at the temp path if a temp file remains,
whether the original was (re)written, whether the run raised, the device on
which the temp file was created (none when no temp file was made), and
whether the replacing move was a same-device atomic rename (none when no
move happened). -/
structure FsResult where
  orig : Atoms
  temp : Option Atoms
  wrote : Bool
  failed : Bool
  tempDev : Option Nat
  atomicReplace : Option Bool
deriving DecidableEq, Repr

/-- The write phase of update_m4a_meta (lines 197-218): an empty change set
skips the file entirely.  Otherwise tempfile.mkstemp is called with a suffix
but no dir argument (line 199), so the temp path is created in the system
temp directory, which lives on device tmpDev — not necessarily on origDev,
the device holding the original file.  AtomicParsley writes the annotated
copy there, and only after a zero exit does shutil.move (line 214) replace
the original; shutil.move renames atomically when source and target share a
device and falls back to a non-atomic copy-then-delete across devices
(Python library semantics).  A non-zero exit raises before the move,
leaving the original untouched and the temp file behind (nothing unlinks
it).  apOk is the external tagger's exit status, tempOnFail whatever it
left at the temp path when it failed. -/
def update_m4a_write (cs : List (AField × Str)) (orig : Atoms) (apOk : Bool)
    (tempOnFail : Atoms) (origDev tmpDev : Nat) : FsResult :=
  if cs = [] then ⟨orig, none, false, false, none, none⟩
  else if apOk then
    ⟨applyChanges orig cs, none, true, false, some tmpDev, some (tmpDev == origDev)⟩
  else ⟨orig, some tempOnFail, false, true, some tmpDev, none⟩

/-- update_m4a_meta end to end on one file: read the current atoms through
m4a_atoms, compute the change set, and run the write phase. -/
def update_m4a_meta (pl : PlaylistCfg) (pos total : Nat) (title : Str) (orig : Atoms)
    (apOk : Bool) (tempOnFail : Atoms) (origDev tmpDev : Nat) : FsResult :=
  update_m4a_write (update_changes pl pos total title (readAtoms orig)) orig apOk tempOnFail
    origDev tmpDev

/-- A Python dict object for one raw entry, as populate sees it: id, title,
and the "pos" key which is absent until populate assigns it. -/
structure PyDict where
  id : Str
  title : Str
  pos : Option Nat
deriving DecidableEq, Repr

/-- Heap write entry["pos"] = p (line 104): the caller's dict object at
reference r is mutated in place. -/
def setPos (heap : List PyDict) (r p : Nat) : List PyDict :=
  match heap[r]? with
  | some d => heap.set r { d with pos := some p }
  | none => heap

/-- Python dict assignment self.entries[kid] = r at the reference level:
the store maps an id to a reference into the heap, not to a copy. -/
def dictInsertRef (store : List (Str × Nat)) (kid : Str) (r : Nat) : List (Str × Nat) :=
  if store.any (fun x => x.1 == kid) then
    store.map (fun x => if x.1 == kid then (kid, r) else x)
  else store ++ [(kid, r)]

/-- Playlist.populate (lines 96-105) at the heap level, making the aliasing
explicit: the caller passes a list of references to dict objects living in
the heap; each iteration mutates the referenced dict by stamping "pos", then
stores that same reference under the dict's id. -/
def populateRefs (heap : List PyDict) (store : List (Str × Nat)) :
    Nat → List Nat → List PyDict × List (Str × Nat)
  | _, [] => (heap, store)
  | i, r :: rest =>
    let heap2 := setPos heap r (i + 1)
    let kid := ((heap2[r]?).getD ⟨[], [], none⟩).id
    populateRefs heap2 (dictInsertRef store kid r) (i + 1) rest

/-! ## Splitting machinery -/

theorem strStarts_append (p s : Str) : strStarts p (p ++ s) = true := by
  induction p with
  | nil => rfl
  | cons c cs ih => simp [strStarts, ih]

theorem strStarts_eq_append (sep : Str) : ∀ s : Str, strStarts sep s = true →
    s = sep ++ s.drop sep.length := by
  induction sep with
  | nil => intro s _; simp
  | cons c cs ih =>
    intro s h
    cases s with
    | nil => simp [strStarts] at h
    | cons d ds =>
      simp only [strStarts, Bool.and_eq_true, beq_iff_eq] at h
      obtain ⟨h1, h2⟩ := h
      subst h1
      have := ih ds h2
      simp only [List.length_cons, List.drop_succ_cons, List.cons_append]
      exact congrArg (List.cons c) this

theorem splitOnce_eq_append (sep : Str) :
    ∀ s a b : Str, splitOnce sep s = some (a, b) → s = a ++ (sep ++ b) := by
  intro s
  induction s with
  | nil => intro a b h; simp [splitOnce] at h
  | cons c rest ih =>
    intro a b h
    rw [splitOnce] at h
    by_cases hs : strStarts sep (c :: rest) = true
    · rw [if_pos hs] at h
      simp only [Option.some.injEq, Prod.mk.injEq] at h
      obtain ⟨ha, hb⟩ := h
      subst ha
      subst hb
      simpa using strStarts_eq_append sep (c :: rest) hs
    · rw [if_neg hs] at h
      cases hd : splitOnce sep rest with
      | none => rw [hd] at h; simp at h
      | some p =>
        rw [hd] at h
        simp only [Option.map_some', Option.some.injEq, Prod.mk.injEq] at h
        obtain ⟨ha, hb⟩ := h
        subst ha
        have := ih p.1 p.2 (by rw [hd])
        subst hb
        simp only [List.cons_append]
        exact congrArg (List.cons c) this

theorem splitOnce_isSome_of_occurs (h : Char) (tl : Str) :
    ∀ p q : Str, (splitOnce (h :: tl) (p ++ (h :: (tl ++ q)))).isSome = true := by
  intro p
  induction p with
  | nil =>
    intro q
    show (splitOnce (h :: tl) (h :: (tl ++ q))).isSome = true
    rw [splitOnce,
      if_pos (show strStarts (h :: tl) (h :: (tl ++ q)) = true from strStarts_append (h :: tl) q)]
    rfl
  | cons c p' ih =>
    intro q
    show (splitOnce (h :: tl) (c :: (p' ++ (h :: (tl ++ q))))).isSome = true
    rw [splitOnce]
    by_cases hs : strStarts (h :: tl) (c :: (p' ++ (h :: (tl ++ q)))) = true
    · rw [if_pos hs]; rfl
    · rw [if_neg hs]
      have := ih q
      cases hd : splitOnce (h :: tl) (p' ++ (h :: (tl ++ q))) with
      | none => rw [hd] at this; simp at this
      | some _ => simp [hd]

theorem splitOnce_boundary (h : Char) (tl : Str) :
    ∀ a b : Str, h ∉ a → splitOnce (h :: tl) (a ++ (h :: (tl ++ b))) = some (a, b) := by
  intro a
  induction a with
  | nil =>
    intro b _
    show splitOnce (h :: tl) (h :: (tl ++ b)) = some ([], b)
    rw [splitOnce,
      if_pos (show strStarts (h :: tl) (h :: (tl ++ b)) = true from strStarts_append (h :: tl) b)]
    simp
  | cons c a' ih =>
    intro b hmem
    have hc : ¬(h == c) = true := by
      simp only [beq_iff_eq]
      intro e
      exact hmem (e ▸ List.mem_cons_self c a')
    show splitOnce (h :: tl) (c :: (a' ++ (h :: (tl ++ b)))) = some (c :: a', b)
    rw [splitOnce]
    rw [if_neg (by simp [strStarts, hc])]
    rw [ih b (fun hh => hmem (List.mem_cons_of_mem c hh))]
    rfl

/-! ## Decimal rendering -/

theorem digitChar_toNat : ∀ d : Nat, d < 10 → (Nat.digitChar d).toNat = 48 + d := by decide

theorem strVal_append_digit (a : Str) (c : Char) :
    strVal (a ++ [c]) = 10 * strVal a + (c.toNat - 48) := by
  induction a with
  | nil => simp [strVal]
  | cons d a' ih =>
    have hl : (a' ++ [c]).length = a'.length + 1 := by simp
    calc strVal ((d :: a') ++ [c])
        = (d.toNat - 48) * 10 ^ (a' ++ [c]).length + strVal (a' ++ [c]) := rfl
      _ = (d.toNat - 48) * (10 ^ a'.length * 10) + (10 * strVal a' + (c.toNat - 48)) := by
          rw [hl, ih, pow_succ]
      _ = 10 * ((d.toNat - 48) * 10 ^ a'.length + strVal a') + (c.toNat - 48) := by ring

theorem strVal_natStrAux : ∀ fuel n : Nat, n ≤ fuel → strVal (natStrAux fuel n) = n := by
  intro fuel
  induction fuel with
  | zero => intro n hn; interval_cases n; rfl
  | succ f ih =>
    intro n hn
    match n with
    | 0 => rfl
    | m + 1 =>
      rw [natStrAux, strVal_append_digit]
      rw [ih ((m + 1) / 10)
        (by
          have := Nat.div_lt_self (Nat.succ_pos m) (by norm_num : 1 < 10)
          omega)]
      rw [digitChar_toNat ((m + 1) % 10) (Nat.mod_lt _ (by norm_num))]
      omega

theorem strVal_natStr (n : Nat) : strVal (natStr n) = n := by
  by_cases h : n = 0
  · subst h; decide
  · rw [natStr, if_neg h]; exact strVal_natStrAux n n le_rfl

theorem natStr_inj {m n : Nat} (h : natStr m = natStr n) : m = n := by
  have := congrArg strVal h
  rwa [strVal_natStr, strVal_natStr] at this

theorem natStrAux_digits :
    ∀ fuel n : Nat, ∀ c ∈ natStrAux fuel n, 48 ≤ c.toNat ∧ c.toNat ≤ 57 := by
  intro fuel
  induction fuel with
  | zero => intro n c hc; simp [natStrAux] at hc
  | succ f ih =>
    intro n c hc
    match n with
    | 0 => simp [natStrAux] at hc
    | m + 1 =>
      rw [natStrAux] at hc
      rcases List.mem_append.mp hc with h1 | h2
      · exact ih _ c h1
      · have hm : (m + 1) % 10 < 10 := Nat.mod_lt _ (by norm_num)
        have hd := digitChar_toNat _ hm
        simp only [List.mem_singleton] at h2
        subst h2
        omega

theorem natStr_digits (n : Nat) : ∀ c ∈ natStr n, 48 ≤ c.toNat ∧ c.toNat ≤ 57 := by
  by_cases h : n = 0
  · subst h
    intro c hc
    rw [show natStr 0 = ['0'] from rfl] at hc
    simp only [List.mem_singleton] at hc
    subst hc
    decide
  · rw [natStr, if_neg h]; exact natStrAux_digits n n

theorem slash_not_mem_natStr (n : Nat) : ('/' : Char) ∉ natStr n := by
  intro hm
  have := natStr_digits n _ hm
  revert this
  decide

theorem space_not_mem_natStr (n : Nat) : (' ' : Char) ∉ natStr n := by
  intro hm
  have := natStr_digits n _ hm
  revert this
  decide

theorem natStr_ne_nil (n : Nat) : natStr n ≠ [] := by
  by_cases h : n = 0
  · subst h; simp [natStr]
  · rw [natStr, if_neg h]
    obtain ⟨m, rfl⟩ : ∃ m, n = m + 1 := ⟨n - 1, by omega⟩
    rw [natStrAux]
    simp

theorem trackStr_ne_nil (pos total : Nat) : trackStr pos total ≠ [] := by
  unfold trackStr
  intro h
  rcases List.append_eq_nil.mp h with ⟨h1, _⟩
  exact natStr_ne_nil pos h1

theorem splitOnce_trackStr (pos total : Nat) :
    splitOnce ('/' :: []) (trackStr pos total) = some (natStr pos, natStr total) := by
  have := splitOnce_boundary '/' [] (natStr pos) (natStr total) (slash_not_mem_natStr pos)
  simpa using this

theorem trackStr_inj {p t p' t' : Nat} (h : trackStr p t = trackStr p' t') :
    p = p' ∧ t = t' := by
  have h1 := splitOnce_trackStr p t
  rw [h, splitOnce_trackStr p' t'] at h1
  simp only [Option.some.injEq, Prod.mk.injEq] at h1
  exact ⟨(natStr_inj h1.1).symm, (natStr_inj h1.2).symm⟩

theorem trkn_roundtrip (p t : Nat) :
    trknNormalize (apDisplayTrkn (trackStr p t)) = trackStr p t := by
  have hd : apDisplayTrkn (trackStr p t)
      = natStr p ++ (' ' :: 'o' :: 'f' :: ' ' :: natStr t) := by
    rw [apDisplayTrkn, splitOnce_trackStr]
  rw [hd]
  have hnil : natStr p ++ (' ' :: 'o' :: 'f' :: ' ' :: natStr t) ≠ [] := by
    intro h
    rcases List.append_eq_nil.mp h with ⟨_, h2⟩
    simp at h2
  have hb : splitOnce (' ' :: 'o' :: 'f' :: ' ' :: [])
      (natStr p ++ (' ' :: 'o' :: 'f' :: ' ' :: natStr t)) = some (natStr p, natStr t) :=
    splitOnce_boundary ' ' ('o' :: 'f' :: ' ' :: []) (natStr p) (natStr t)
      (space_not_mem_natStr p)
  rw [trknNormalize, if_neg hnil, hb]
  rfl

/-- C5: for every string s, split_artist returns the two parts of the first
split on the literal " - " (trimmed) when that separator occurs, otherwise the
two parts of the first split on a bare "-" (trimmed) when that occurs, and
otherwise warns and returns (no-artist, s unchanged); in particular
split_artist "Moe Turk - Together (Remix)" = ("Moe Turk", "Together (Remix)")
and split_artist "NoSeparatorHere" = (None, "NoSeparatorHere"). -/
theorem split_artist_spec :
    (∀ s a b : Str, splitOnce (' ' :: '-' :: ' ' :: []) s = some (a, b) →
        s = a ++ (' ' :: '-' :: ' ' :: b) ∧
        split_artist s = (some (strip a), some (strip b)))
  ∧ (∀ s a b : Str, splitOnce (' ' :: '-' :: ' ' :: []) s = none →
        splitOnce ('-' :: []) s = some (a, b) →
        s = a ++ ('-' :: b) ∧
        split_artist s = (some (strip a), some (strip b)))
  ∧ (∀ s : Str, (¬ ∃ p q : Str, s = p ++ ('-' :: q)) →
        split_artist s = (none, some s))
  ∧ split_artist ("Moe Turk - Together (Remix)".toList)
      = (some ("Moe Turk".toList), some ("Together (Remix)".toList))
  ∧ split_artist ("NoSeparatorHere".toList) = (none, some ("NoSeparatorHere".toList)) := by
  refine ⟨?_, ?_, ?_, by decide, by decide⟩
  · intro s a b h
    refine ⟨splitOnce_eq_append _ s a b h, ?_⟩
    rw [split_artist, h]
  · intro s a b h1 h2
    refine ⟨splitOnce_eq_append _ s a b h2, ?_⟩
    rw [split_artist, h1, h2]
  · intro s hno
    have h2 : splitOnce ('-' :: []) s = none := by
      cases he : splitOnce ('-' :: []) s with
      | none => rfl
      | some p =>
        exact absurd ⟨p.1, p.2, splitOnce_eq_append _ s p.1 p.2 (by rw [he])⟩ hno
    have h1 : splitOnce (' ' :: '-' :: ' ' :: []) s = none := by
      cases he : splitOnce (' ' :: '-' :: ' ' :: []) s with
      | none => rfl
      | some p =>
        have hs := splitOnce_eq_append _ s p.1 p.2 (by rw [he])
        refine absurd ⟨p.1 ++ [' '], ' ' :: p.2, ?_⟩ hno
        rw [hs]
        simp
    rw [split_artist, h1, h2]

/-- Witness for C5 at the concrete title "A - B". -/
theorem split_artist_spec_witness :
    ("A - B".toList : Str) = "A".toList ++ (' ' :: '-' :: ' ' :: "B".toList) ∧
    split_artist ("A - B".toList) = (some (strip ("A".toList)), some (strip ("B".toList))) :=
  split_artist_spec.1 ("A - B".toList) ("A".toList) ("B".toList) (by decide)

/-! ## Change-set machinery -/

theorem Atoms.get_set_same (a : Atoms) (f : AField) (v : Str) : (a.set f v).get f = some v := by
  cases f <;> rfl

theorem Atoms.get_set_ne (a : Atoms) (f g : AField) (v : Str) (h : g ≠ f) :
    (a.set f v).get g = a.get g := by
  cases f <;> cases g <;> simp_all [Atoms.set, Atoms.get]

theorem applyChanges_get_ne_none (a : Atoms) (cs : List (AField × Str)) (f : AField)
    (h : a.get f ≠ none) : (applyChanges a cs).get f ≠ none := by
  induction cs generalizing a with
  | nil => exact h
  | cons c rest ih =>
    show (applyChanges (a.set c.1 c.2) rest).get f ≠ none
    apply ih
    by_cases hf : f = c.1
    · subst hf
      rw [Atoms.get_set_same]
      simp
    · rw [Atoms.get_set_ne a c.1 f c.2 hf]
      exact h

theorem applyChanges_mem_ne_none (a : Atoms) (cs : List (AField × Str)) (f : AField) (v : Str)
    (h : (f, v) ∈ cs) : (applyChanges a cs).get f ≠ none := by
  induction cs generalizing a with
  | nil => simp at h
  | cons c rest ih =>
    rcases List.mem_cons.mp h with h1 | h2
    · have hset : (a.set c.1 c.2).get f ≠ none := by
        rw [← h1, Atoms.get_set_same]
        simp
      exact applyChanges_get_ne_none _ rest f hset
    · exact ih _ h2

theorem applyChanges_not_mem (a : Atoms) (cs : List (AField × Str)) (f : AField)
    (h : ∀ v : Str, (f, v) ∉ cs) : (applyChanges a cs).get f = a.get f := by
  induction cs generalizing a with
  | nil => rfl
  | cons c rest ih =>
    have hne : f ≠ c.1 := fun e =>
      h c.2 (by rw [e, Prod.mk.eta]; exact List.mem_cons_self _ _)
    calc (applyChanges a (c :: rest)).get f
        = (applyChanges (a.set c.1 c.2) rest).get f := rfl
      _ = (a.set c.1 c.2).get f := ih _ (fun v hv => h v (List.mem_cons_of_mem _ hv))
      _ = a.get f := Atoms.get_set_ne a c.1 f c.2 hne

theorem mem_optChange (fld : AField) (cur inc : Option Str) (p : AField × Str)
    (h : p ∈ optChange fld cur inc) : p.1 = fld ∧ cur = none ∧ inc = some p.2 := by
  rcases cur with _ | x <;> rcases inc with _ | y
  · simp [optChange] at h
  · simp only [optChange, List.mem_singleton] at h
    subst h
    exact ⟨rfl, rfl, rfl⟩
  · simp [optChange] at h
  · simp [optChange] at h

theorem optChange_inc_none (fld : AField) (cur : Option Str) : optChange fld cur none = [] := by
  rcases cur with _ | x <;> rfl

theorem optChange_cur_some (fld : AField) (x : Str) (inc : Option Str) :
    optChange fld (some x) inc = [] := by
  rcases inc with _ | y <;> rfl

theorem mem_trknChange (tn : Str) (atoms : Atoms) (p : AField × Str)
    (h : p ∈ trknChange tn atoms) : p = (AField.trkn, tn) ∧ tn ≠ atoms.trkn.getD [] := by
  rw [trknChange] at h
  by_cases hc : tn ≠ atoms.trkn.getD []
  · rw [if_pos hc] at h
    simp only [List.mem_singleton] at h
    exact ⟨h, hc⟩
  · rw [if_neg hc] at h
    simp at h

theorem mem_update_changes (pl : PlaylistCfg) (pos total : Nat) (title : Str) (atoms : Atoms)
    (p : AField × Str) (hp : p ∈ update_changes pl pos total title atoms) :
    p ∈ optChange AField.genre atoms.genre pl.genre ∨
    p ∈ optChange AField.album atoms.album pl.name ∨
    p ∈ optChange AField.title atoms.title (split_artist title).2 ∨
    p ∈ optChange AField.artist atoms.artist (split_artist title).1 ∨
    p ∈ trknChange (trackStr pos total) atoms := by
  simp only [update_changes, List.mem_append] at hp
  tauto

/-- C1: the reconciler's change set sets album only when no album atom exists
(to the playlist name), genre only when no genre atom exists (to the playlist
genre), title and artist only when the corresponding atom is absent and the
split of the raw title yielded that component, contains a track-number update
exactly when the computed "pos/total" string differs from the current
track-number value (including when that value is absent), and overwrites no
already-present field other than track number. -/
theorem update_changes_policy (pl : PlaylistCfg) (pos total : Nat) (title : Str)
    (atoms : Atoms) :
    (∀ v : Str, (AField.album, v) ∈ update_changes pl pos total title atoms →
        atoms.album = none ∧ pl.name = some v)
  ∧ (∀ v : Str, (AField.genre, v) ∈ update_changes pl pos total title atoms →
        atoms.genre = none ∧ pl.genre = some v)
  ∧ (∀ v : Str, (AField.title, v) ∈ update_changes pl pos total title atoms →
        atoms.title = none ∧ (split_artist title).2 = some v)
  ∧ (∀ v : Str, (AField.artist, v) ∈ update_changes pl pos total title atoms →
        atoms.artist = none ∧ (split_artist title).1 = some v)
  ∧ ((∃ v : Str, (AField.trkn, v) ∈ update_changes pl pos total title atoms) ↔
        atoms.trkn ≠ some (trackStr pos total))
  ∧ (∀ (f : AField) (v : Str), (f, v) ∈ update_changes pl pos total title atoms →
        f ≠ AField.trkn → atoms.get f = none) := by
  refine ⟨?_, ?_, ?_, ?_, ⟨?_, ?_⟩, ?_⟩
  · intro v h
    rcases mem_update_changes pl pos total title atoms _ h with h1 | h1 | h1 | h1 | h1
    · obtain ⟨hf, _, _⟩ := mem_optChange _ _ _ _ h1; simp at hf
    · obtain ⟨_, h2, h3⟩ := mem_optChange _ _ _ _ h1; exact ⟨h2, h3⟩
    · obtain ⟨hf, _, _⟩ := mem_optChange _ _ _ _ h1; simp at hf
    · obtain ⟨hf, _, _⟩ := mem_optChange _ _ _ _ h1; simp at hf
    · obtain ⟨hp, _⟩ := mem_trknChange _ _ _ h1; simp at hp
  · intro v h
    rcases mem_update_changes pl pos total title atoms _ h with h1 | h1 | h1 | h1 | h1
    · obtain ⟨_, h2, h3⟩ := mem_optChange _ _ _ _ h1; exact ⟨h2, h3⟩
    · obtain ⟨hf, _, _⟩ := mem_optChange _ _ _ _ h1; simp at hf
    · obtain ⟨hf, _, _⟩ := mem_optChange _ _ _ _ h1; simp at hf
    · obtain ⟨hf, _, _⟩ := mem_optChange _ _ _ _ h1; simp at hf
    · obtain ⟨hp, _⟩ := mem_trknChange _ _ _ h1; simp at hp
  · intro v h
    rcases mem_update_changes pl pos total title atoms _ h with h1 | h1 | h1 | h1 | h1
    · obtain ⟨hf, _, _⟩ := mem_optChange _ _ _ _ h1; simp at hf
    · obtain ⟨hf, _, _⟩ := mem_optChange _ _ _ _ h1; simp at hf
    · obtain ⟨_, h2, h3⟩ := mem_optChange _ _ _ _ h1; exact ⟨h2, h3⟩
    · obtain ⟨hf, _, _⟩ := mem_optChange _ _ _ _ h1; simp at hf
    · obtain ⟨hp, _⟩ := mem_trknChange _ _ _ h1; simp at hp
  · intro v h
    rcases mem_update_changes pl pos total title atoms _ h with h1 | h1 | h1 | h1 | h1
    · obtain ⟨hf, _, _⟩ := mem_optChange _ _ _ _ h1; simp at hf
    · obtain ⟨hf, _, _⟩ := mem_optChange _ _ _ _ h1; simp at hf
    · obtain ⟨hf, _, _⟩ := mem_optChange _ _ _ _ h1; simp at hf
    · obtain ⟨_, h2, h3⟩ := mem_optChange _ _ _ _ h1; exact ⟨h2, h3⟩
    · obtain ⟨hp, _⟩ := mem_trknChange _ _ _ h1; simp at hp
  · rintro ⟨v, h⟩
    rcases mem_update_changes pl pos total title atoms _ h with h1 | h1 | h1 | h1 | h1 <;>
      first
      | (obtain ⟨hf, _, _⟩ := mem_optChange _ _ _ _ h1; simp at hf)
      | skip
    obtain ⟨_, hcond⟩ := mem_trknChange _ _ _ h1
    intro e
    rw [e, Option.getD_some] at hcond
    exact hcond rfl
  · intro h
    have hcond : trackStr pos total ≠ atoms.trkn.getD [] := by
      rcases ht : atoms.trkn with _ | w
      · simp only [Option.getD_none]
        exact trackStr_ne_nil pos total
      · simp only [Option.getD_some]
        intro e
        exact h (by rw [ht, e])
    refine ⟨trackStr pos total, ?_⟩
    simp only [update_changes, List.mem_append]
    refine Or.inr ?_
    rw [trknChange, if_pos hcond]
    simp
  · intro f v h hf
    rcases mem_update_changes pl pos total title atoms _ h with h1 | h1 | h1 | h1 | h1
    · obtain ⟨h1f, h2, _⟩ := mem_optChange _ _ _ _ h1
      simp only at h1f
      subst h1f
      exact h2
    · obtain ⟨h1f, h2, _⟩ := mem_optChange _ _ _ _ h1
      simp only at h1f
      subst h1f
      exact h2
    · obtain ⟨h1f, h2, _⟩ := mem_optChange _ _ _ _ h1
      simp only at h1f
      subst h1f
      exact h2
    · obtain ⟨h1f, h2, _⟩ := mem_optChange _ _ _ _ h1
      simp only at h1f
      subst h1f
      exact h2
    · obtain ⟨hp, _⟩ := mem_trknChange _ _ _ h1
      exact absurd (congrArg Prod.fst hp) hf

/-- Witness for C1: on an untagged file the change set does contain a
track-number update. -/
theorem update_changes_policy_witness :
    ∃ v : Str, (AField.trkn, v) ∈ update_changes ⟨some ("P".toList), some ("G".toList)⟩ 1 2
      ("A - B".toList) ⟨none, none, none, none, none⟩ :=
  (update_changes_policy ⟨some ("P".toList), some ("G".toList)⟩ 1 2 ("A - B".toList)
    ⟨none, none, none, none, none⟩).2.2.2.2.1.mpr (by decide)

/-- C4: when the album, genre, title and artist atoms are all present and the
track number on file is the one a previous reconcile computed from (pos,
total), a reconcile with changed position data (p2, t2) produces exactly one
change, the track-number update to the new "pos/total", and nothing else. -/
theorem track_renumber_only (pl : PlaylistCfg) (pos total p2 t2 : Nat) (title : Str)
    (atoms : Atoms)
    (hg : atoms.genre ≠ none) (ha : atoms.album ≠ none) (ht : atoms.title ≠ none)
    (har : atoms.artist ≠ none) (htr : atoms.trkn = some (trackStr pos total))
    (hne : (p2, t2) ≠ (pos, total)) :
    update_changes pl p2 t2 title atoms = [(AField.trkn, trackStr p2 t2)] := by
  obtain ⟨g, hg'⟩ := Option.ne_none_iff_exists'.mp hg
  obtain ⟨al, ha'⟩ := Option.ne_none_iff_exists'.mp ha
  obtain ⟨ti, ht'⟩ := Option.ne_none_iff_exists'.mp ht
  obtain ⟨ar, har'⟩ := Option.ne_none_iff_exists'.mp har
  have hcond : trackStr p2 t2 ≠ atoms.trkn.getD [] := by
    rw [htr, Option.getD_some]
    intro e
    rcases trackStr_inj e with ⟨e1, e2⟩
    exact hne (by rw [e1, e2])
  simp only [update_changes]
  rw [hg', ha', ht', har']
  rw [optChange_cur_some, optChange_cur_some, optChange_cur_some, optChange_cur_some]
  rw [trknChange, if_pos hcond]
  simp

/-- Witness for C4: a fully tagged file whose pos moves from 1 to 2 gets
exactly the track-number update. -/
theorem track_renumber_only_witness :
    update_changes ⟨some ("P".toList), some ("G".toList)⟩ 2 2 ("t".toList)
      ⟨some ("G".toList), some ("P".toList), some ("S".toList), some ("A".toList),
        some (trackStr 1 2)⟩ = [(AField.trkn, trackStr 2 2)] :=
  track_renumber_only ⟨some ("P".toList), some ("G".toList)⟩ 1 2 2 2 ("t".toList)
    ⟨some ("G".toList), some ("P".toList), some ("S".toList), some ("A".toList),
      some (trackStr 1 2)⟩
    (by decide) (by decide) (by decide) (by decide) rfl (by decide)

/-! ## Idempotence of reconciliation -/

theorem applyChanges_append (a : Atoms) (l1 l2 : List (AField × Str)) :
    applyChanges a (l1 ++ l2) = applyChanges (applyChanges a l1) l2 := by
  simp [applyChanges]

theorem readAtoms_genre (a : Atoms) : (readAtoms a).genre = a.genre := rfl

theorem readAtoms_album (a : Atoms) : (readAtoms a).album = a.album := rfl

theorem readAtoms_title (a : Atoms) : (readAtoms a).title = a.title := rfl

theorem readAtoms_artist (a : Atoms) : (readAtoms a).artist = a.artist := rfl

theorem readAtoms_trkn (a : Atoms) :
    (readAtoms a).trkn = a.trkn.map (fun t => trknNormalize (apDisplayTrkn t)) := rfl

theorem applyChanges_update_trkn (pl : PlaylistCfg) (pos total : Nat) (title : Str)
    (A fc : Atoms) :
    (applyChanges fc (update_changes pl pos total title A)).trkn
      = if trackStr pos total ≠ A.trkn.getD [] then some (trackStr pos total)
        else fc.trkn := by
  have hsplit : update_changes pl pos total title A
      = (optChange AField.genre A.genre pl.genre ++
         (optChange AField.album A.album pl.name ++
          (optChange AField.title A.title (split_artist title).2 ++
           optChange AField.artist A.artist (split_artist title).1)))
        ++ trknChange (trackStr pos total) A := by
    simp only [update_changes]
    simp [List.append_assoc]
  have hfront : ∀ v : Str,
      (AField.trkn, v) ∉
        optChange AField.genre A.genre pl.genre ++
          (optChange AField.album A.album pl.name ++
           (optChange AField.title A.title (split_artist title).2 ++
            optChange AField.artist A.artist (split_artist title).1)) := by
    intro v hv
    rcases List.mem_append.mp hv with h | h
    · obtain ⟨hf, _, _⟩ := mem_optChange _ _ _ _ h; simp at hf
    rcases List.mem_append.mp h with h | h
    · obtain ⟨hf, _, _⟩ := mem_optChange _ _ _ _ h; simp at hf
    rcases List.mem_append.mp h with h | h
    · obtain ⟨hf, _, _⟩ := mem_optChange _ _ _ _ h; simp at hf
    · obtain ⟨hf, _, _⟩ := mem_optChange _ _ _ _ h; simp at hf
  rw [hsplit, applyChanges_append]
  by_cases hc : trackStr pos total ≠ A.trkn.getD []
  · rw [if_pos hc, trknChange, if_pos hc]
    rfl
  · rw [if_neg hc, trknChange, if_neg hc]
    exact applyChanges_not_mem fc _ AField.trkn hfront

theorem update_changes_nil (pl : PlaylistCfg) (pos total : Nat) (title : Str) (B : Atoms)
    (h1 : pl.genre = none ∨ B.genre ≠ none)
    (h2 : pl.name = none ∨ B.album ≠ none)
    (h3 : (split_artist title).2 = none ∨ B.title ≠ none)
    (h4 : (split_artist title).1 = none ∨ B.artist ≠ none)
    (h5 : B.trkn = some (trackStr pos total)) :
    update_changes pl pos total title B = [] := by
  have e1 : optChange AField.genre B.genre pl.genre = [] := by
    rcases h1 with h | h
    · rw [h]; exact optChange_inc_none _ _
    · rcases hx : B.genre with _ | w
      · exact absurd hx h
      · exact optChange_cur_some _ _ _
  have e2 : optChange AField.album B.album pl.name = [] := by
    rcases h2 with h | h
    · rw [h]; exact optChange_inc_none _ _
    · rcases hx : B.album with _ | w
      · exact absurd hx h
      · exact optChange_cur_some _ _ _
  have e3 : optChange AField.title B.title (split_artist title).2 = [] := by
    rcases h3 with h | h
    · rw [h]; exact optChange_inc_none _ _
    · rcases hx : B.title with _ | w
      · exact absurd hx h
      · exact optChange_cur_some _ _ _
  have e4 : optChange AField.artist B.artist (split_artist title).1 = [] := by
    rcases h4 with h | h
    · rw [h]; exact optChange_inc_none _ _
    · rcases hx : B.artist with _ | w
      · exact absurd hx h
      · exact optChange_cur_some _ _ _
  have e5 : trknChange (trackStr pos total) B = [] := by
    rw [trknChange, h5, Option.getD_some, if_neg (by simp)]
  simp only [update_changes]
  rw [e1, e2, e3, e4, e5]
  rfl

/-- C3: reconciliation is idempotent.  Starting from any file content, run
update_m4a_meta once and apply its change set; reading the file back through
m4a_atoms (which normalizes the tag reader's "X of Y" track form back to
"X/Y") and reconciling again yields an empty change set: already-set fields
are never reset and the track-number comparison finds the current value equal
to the target. -/
theorem reconcile_idempotent (pl : PlaylistCfg) (pos total : Nat) (title : Str) (fc : Atoms) :
    update_changes pl pos total title
      (readAtoms (applyChanges fc (update_changes pl pos total title (readAtoms fc)))) = [] := by
  apply update_changes_nil
  · rcases hpg : pl.genre with _ | g
    · exact Or.inl rfl
    · refine Or.inr ?_
      show (applyChanges fc (update_changes pl pos total title (readAtoms fc))).genre ≠ none
      rcases hfg : fc.genre with _ | w
      · have hmem : (AField.genre, g) ∈ update_changes pl pos total title (readAtoms fc) := by
          simp only [update_changes, List.mem_append]
          left; left; left; left
          have hAg : (readAtoms fc).genre = none := hfg
          rw [hAg, hpg]
          simp [optChange]
        exact applyChanges_mem_ne_none fc _ AField.genre g hmem
      · have hne : fc.get AField.genre ≠ none := by
          show fc.genre ≠ none
          rw [hfg]
          simp
        exact applyChanges_get_ne_none fc _ AField.genre hne
  · rcases hpn : pl.name with _ | nm
    · exact Or.inl rfl
    · refine Or.inr ?_
      show (applyChanges fc (update_changes pl pos total title (readAtoms fc))).album ≠ none
      rcases hfa : fc.album with _ | w
      · have hmem : (AField.album, nm) ∈ update_changes pl pos total title (readAtoms fc) := by
          simp only [update_changes, List.mem_append]
          left; left; left; right
          have hAa : (readAtoms fc).album = none := hfa
          rw [hAa, hpn]
          simp [optChange]
        exact applyChanges_mem_ne_none fc _ AField.album nm hmem
      · have hne : fc.get AField.album ≠ none := by
          show fc.album ≠ none
          rw [hfa]
          simp
        exact applyChanges_get_ne_none fc _ AField.album hne
  · rcases hsp : (split_artist title).2 with _ | sg
    · exact Or.inl rfl
    · refine Or.inr ?_
      show (applyChanges fc (update_changes pl pos total title (readAtoms fc))).title ≠ none
      rcases hft : fc.title with _ | w
      · have hmem : (AField.title, sg) ∈ update_changes pl pos total title (readAtoms fc) := by
          simp only [update_changes, List.mem_append]
          left; left; right
          have hAt : (readAtoms fc).title = none := hft
          rw [hAt, hsp]
          simp [optChange]
        exact applyChanges_mem_ne_none fc _ AField.title sg hmem
      · have hne : fc.get AField.title ≠ none := by
          show fc.title ≠ none
          rw [hft]
          simp
        exact applyChanges_get_ne_none fc _ AField.title hne
  · rcases hsp : (split_artist title).1 with _ | ar
    · exact Or.inl rfl
    · refine Or.inr ?_
      show (applyChanges fc (update_changes pl pos total title (readAtoms fc))).artist ≠ none
      rcases hfr : fc.artist with _ | w
      · have hmem : (AField.artist, ar) ∈ update_changes pl pos total title (readAtoms fc) := by
          simp only [update_changes, List.mem_append]
          left; right
          have hAr : (readAtoms fc).artist = none := hfr
          rw [hAr, hsp]
          simp [optChange]
        exact applyChanges_mem_ne_none fc _ AField.artist ar hmem
      · have hne : fc.get AField.artist ≠ none := by
          show fc.artist ≠ none
          rw [hfr]
          simp
        exact applyChanges_get_ne_none fc _ AField.artist hne
  · have hF := applyChanges_update_trkn pl pos total title (readAtoms fc) fc
    by_cases hc : trackStr pos total ≠ (readAtoms fc).trkn.getD []
    · rw [if_pos hc] at hF
      rw [readAtoms_trkn, hF]
      simp only [Option.map_some']
      rw [trkn_roundtrip]
    · rw [if_neg hc] at hF
      push_neg at hc
      rcases hft : fc.trkn with _ | w
      · exfalso
        have hnone : (readAtoms fc).trkn = none := by
          rw [readAtoms_trkn, hft]
          rfl
        rw [hnone, Option.getD_none] at hc
        exact trackStr_ne_nil pos total hc
      · have hcw : trackStr pos total = trknNormalize (apDisplayTrkn w) := by
          rw [readAtoms_trkn, hft] at hc
          simpa using hc
        rw [readAtoms_trkn, hF, hft]
        simp only [Option.map_some']
        rw [← hcw]

/-! ## Write phase -/

/-- C9: the skip-on-empty, move-only-after-success, and temp-left-on-failure
parts of the claim hold, but the "temporary path in the same filesystem"
part does not: tempfile.mkstemp is called with no dir argument (line 199),
so the annotated copy is created in the system temp directory.  Evaluated
with the playlist folder on device 0 and the system temp directory on
device 1: a fully tagged file is skipped with no write, no temp file and no
move; an untagged file has its annotated copy created on device 1 — not the
original file's filesystem — and the replacing shutil.move is a non-atomic
cross-device copy; and when the tagger fails the original is untouched with
the temp file left behind. -/
theorem update_write_wrong_filesystem :
    update_m4a_meta ⟨some ("P".toList), some ("G".toList)⟩ 1 2 ("A - B".toList)
      ⟨some ("G".toList), some ("P".toList), some ("B".toList), some ("A".toList),
        some (trackStr 1 2)⟩ true ⟨none, none, none, none, none⟩ 0 1
      = ⟨⟨some ("G".toList), some ("P".toList), some ("B".toList), some ("A".toList),
          some (trackStr 1 2)⟩, none, false, false, none, none⟩
  ∧ (update_m4a_meta ⟨some ("P".toList), some ("G".toList)⟩ 1 2 ("A - B".toList)
      ⟨none, none, none, none, none⟩ true ⟨none, none, none, none, none⟩ 0 1).wrote = true
  ∧ (update_m4a_meta ⟨some ("P".toList), some ("G".toList)⟩ 1 2 ("A - B".toList)
      ⟨none, none, none, none, none⟩ true ⟨none, none, none, none, none⟩ 0 1).tempDev
      = some 1
  ∧ (update_m4a_meta ⟨some ("P".toList), some ("G".toList)⟩ 1 2 ("A - B".toList)
      ⟨none, none, none, none, none⟩ true ⟨none, none, none, none, none⟩ 0 1).atomicReplace
      = some false
  ∧ update_m4a_meta ⟨some ("P".toList), some ("G".toList)⟩ 1 2 ("A - B".toList)
      ⟨none, none, none, none, none⟩ false ⟨none, none, none, none, none⟩ 0 1
      = ⟨⟨none, none, none, none, none⟩, some ⟨none, none, none, none, none⟩, false, true,
         some 1, none⟩ := by decide

/-! ## Entry store -/

theorem find_cons_pos {α : Type} (p : α → Bool) (a : α) (l : List α) (h : p a = true) :
    (a :: l).find? p = some a := by
  simp [List.find?, h]

theorem find_cons_neg {α : Type} (p : α → Bool) (a : α) (l : List α) (h : p a = false) :
    (a :: l).find? p = l.find? p := by
  simp [List.find?, h]

theorem find_map_overwrite (e : Entry) : ∀ st : List Entry,
    st.any (fun x => x.id == e.id) = true →
    (st.map (fun x => if x.id == e.id then e else x)).find? (fun x => x.id == e.id)
      = some e := by
  intro st
  induction st with
  | nil => intro h; simp at h
  | cons x rest ih =>
    intro h
    by_cases hx : (x.id == e.id) = true
    · simp only [List.map_cons, if_pos hx]
      exact find_cons_pos _ e _ (by simp)
    · simp only [List.map_cons, if_neg hx]
      rw [find_cons_neg (fun x => x.id == e.id) x _ (by simpa using hx)]
      apply ih
      simp only [List.any_cons, Bool.or_eq_true] at h
      rcases h with h | h
      · exact absurd h hx
      · exact h

theorem find_append_new (e : Entry) : ∀ st : List Entry,
    st.any (fun x => x.id == e.id) = false →
    (st ++ [e]).find? (fun x => x.id == e.id) = some e := by
  intro st
  induction st with
  | nil => intro _; exact find_cons_pos _ e _ (by simp)
  | cons x rest ih =>
    intro h
    simp only [List.any_cons, Bool.or_eq_false_iff] at h
    rw [List.cons_append, find_cons_neg (fun x => x.id == e.id) x _ h.1]
    exact ih h.2

theorem get_entry_dictInsert_self (st : List Entry) (e : Entry) :
    get_entry (dictInsert st e) e.id = some e := by
  rw [get_entry, dictInsert]
  by_cases h : st.any (fun x => x.id == e.id) = true
  · rw [if_pos h]
    exact find_map_overwrite e st h
  · rw [if_neg h]
    exact find_append_new e st (by simpa using h)

theorem get_entry_dictInsert_ne (st : List Entry) (e : Entry) (i : Str) (hne : i ≠ e.id) :
    get_entry (dictInsert st e) i = get_entry st i := by
  have hei : (e.id == i) = false := beq_eq_false_iff_ne.mpr (fun e2 => hne e2.symm)
  rw [get_entry, get_entry, dictInsert]
  by_cases h : st.any (fun x => x.id == e.id) = true
  · rw [if_pos h]
    clear h
    induction st with
    | nil => rfl
    | cons x rest ih =>
      simp only [List.map_cons]
      by_cases hx : (x.id == e.id) = true
      · rw [if_pos hx]
        have hxid : x.id = e.id := by simpa using hx
        have hxi : (x.id == i) = false := by
          rw [hxid]
          exact hei
        rw [find_cons_neg (fun x => x.id == i) e _ hei]
        rw [find_cons_neg (fun x => x.id == i) x rest hxi]
        exact ih
      · rw [if_neg hx]
        by_cases hxi : (x.id == i) = true
        · rw [find_cons_pos (fun x => x.id == i) x _ hxi,
            find_cons_pos (fun x => x.id == i) x rest hxi]
        · rw [find_cons_neg (fun x => x.id == i) x _ (by simpa using hxi),
            find_cons_neg (fun x => x.id == i) x rest (by simpa using hxi)]
          exact ih
  · rw [if_neg h]
    clear h
    induction st with
    | nil =>
      rw [List.nil_append, find_cons_neg (fun x => x.id == i) e [] hei]
    | cons x rest ih =>
      rw [List.cons_append]
      by_cases hxi : (x.id == i) = true
      · rw [find_cons_pos (fun x => x.id == i) x _ hxi,
          find_cons_pos (fun x => x.id == i) x rest hxi]
      · rw [find_cons_neg (fun x => x.id == i) x _ (by simpa using hxi),
          find_cons_neg (fun x => x.id == i) x rest (by simpa using hxi)]
        exact ih

theorem populateFrom_get_no_occur :
    ∀ (raws : List RawEntry) (st : List Entry) (k : Nat) (i : Str),
    (∀ r ∈ raws, r.id ≠ i) → get_entry (populateFrom st k raws) i = get_entry st i := by
  intro raws
  induction raws with
  | nil => intro st k i _; rfl
  | cons r rest ih =>
    intro st k i h
    rw [populateFrom]
    rw [ih _ _ i (fun q hq => h q (List.mem_cons_of_mem _ hq))]
    exact get_entry_dictInsert_ne st _ i (Ne.symm (h r (List.mem_cons_self _ _)))

theorem populateFrom_get_occur :
    ∀ (raws : List RawEntry) (st : List Entry) (k : Nat) (i : Str),
    i ∈ raws.map RawEntry.id →
    ∃ e : Entry, get_entry (populateFrom st k raws) i = some e ∧ e.id = i := by
  intro raws
  induction raws with
  | nil => intro st k i h; simp at h
  | cons r rest ih =>
    intro st k i h
    by_cases hr : i ∈ rest.map RawEntry.id
    · rw [populateFrom]
      exact ih _ _ i hr
    · have hi : i = r.id := by
        simp only [List.map_cons, List.mem_cons] at h
        tauto
      subst hi
      rw [populateFrom]
      rw [populateFrom_get_no_occur rest _ _ _
        (fun q hq hqi => hr (by rw [← hqi]; exact List.mem_map_of_mem _ hq))]
      exact ⟨⟨r.id, r.title, k + 1⟩, get_entry_dictInsert_self st _, rfl⟩

/-- C2: the claim (and the script's own docstring, lines 41-43: "Track
numbers are obtained only from a song's first occurrence in a playlist")
says pos keeps the 1-based index of the first occurrence; populate
(lines 103-105) instead overwrites the stored entry on every occurrence, so
a duplicated id ends with the pos and title of its last occurrence.  Here
"a" occurs at positions 1 and 3 and is stored with pos 3, not 1. -/
theorem populate_duplicate_pos_is_last :
    get_entry (populate [] [⟨"a".toList, "t1".toList⟩, ⟨"b".toList, "t2".toList⟩,
      ⟨"a".toList, "t3".toList⟩]) ("a".toList)
      = some ⟨"a".toList, "t3".toList, 3⟩ := by decide

/-- C6 counterexample: after populate(L1) followed by populate(L2) the store
is not "exactly the distinct ids of L2": the id "a", which occurs only in
L1, is still resolvable with its old entry, and the store holds two entries
although L2 has a single id. -/
theorem populate_replaces_counterexample :
    get_entry (populate (populate [] [⟨"a".toList, "x".toList⟩]) [⟨"b".toList, "y".toList⟩])
      ("a".toList) = some ⟨"a".toList, "x".toList, 1⟩
  ∧ (populate (populate [] [⟨"a".toList, "x".toList⟩])
      [⟨"b".toList, "y".toList⟩]).length = 2 := by
  decide

/-- C6 amended: a second populate call merges into the existing store rather
than replacing it — populate never clears self.entries.  Every id of L2
resolves after the call, while ids absent from L2 (in particular ids
occurring only in L1) keep exactly their previous entries. -/
theorem populate_merges (st : List Entry) (L2 : List RawEntry) :
    (∀ i : Str, (∀ r ∈ L2, r.id ≠ i) → get_entry (populate st L2) i = get_entry st i)
  ∧ (∀ i : Str, i ∈ L2.map RawEntry.id →
      ∃ e : Entry, get_entry (populate st L2) i = some e ∧ e.id = i) :=
  ⟨fun i h => populateFrom_get_no_occur L2 st 0 i h,
   fun i h => populateFrom_get_occur L2 st 0 i h⟩

/-- Witness for C6 amended: the id "a" occurring only in the first listing
keeps its entry across a second populate. -/
theorem populate_merges_witness :
    get_entry (populate (populate [] [⟨"a".toList, "x".toList⟩]) [⟨"b".toList, "y".toList⟩])
      ("a".toList)
      = get_entry (populate [] [⟨"a".toList, "x".toList⟩]) ("a".toList) :=
  (populate_merges (populate [] [⟨"a".toList, "x".toList⟩])
    [⟨"b".toList, "y".toList⟩]).1 ("a".toList) (by decide)

/-! ## Filename matching -/

theorem trackStep_fst (store : List Entry) (f : Str) : (trackStep store f).1 = f := by
  rw [trackStep]
  cases extract_yid f with
  | none => rfl
  | some i =>
    show (match get_entry store i with
      | none => (f, TrackAction.notFound)
      | some e => (f, TrackAction.update e)).1 = f
    cases get_entry store i with
    | none => rfl
    | some e => rfl

/-- C7: a filename that does not end in a hyphen, exactly eleven identifier
characters and ".m4a" is reported and skipped without raising; when the
suffix is present but the id is absent from the store, get_entry returns a
not-found signal (never raises) and the file is skipped; neither miss aborts
the processing of the remaining files — every file gets an outcome.  The
filename "Artist - Song-dYGgqJiJZCA.m4a" resolves to id "dYGgqJiJZCA". -/
theorem filename_matching_safe :
    extract_yid ("Artist - Song-dYGgqJiJZCA.m4a".toList) = some ("dYGgqJiJZCA".toList)
  ∧ (∀ (store : List Entry) (i : Str), (∀ e ∈ store, e.id ≠ i) → get_entry store i = none)
  ∧ (∀ (store : List Entry) (f : Str), extract_yid f = none →
      trackStep store f = (f, TrackAction.noId))
  ∧ (∀ (store : List Entry) (f i : Str), extract_yid f = some i → get_entry store i = none →
      trackStep store f = (f, TrackAction.notFound))
  ∧ (∀ (store : List Entry) (files : List Str),
      (track_meta_plan store files).map Prod.fst = files) := by
  refine ⟨by decide, ?_, ?_, ?_, ?_⟩
  · intro store i h
    rw [get_entry, List.find?_eq_none]
    intro e he
    simp only [beq_iff_eq]
    exact h e he
  · intro store f h
    rw [trackStep, h]
  · intro store f i h1 h2
    rw [trackStep, h1]
    show (match get_entry store i with
      | none => (f, TrackAction.notFound)
      | some e => (f, TrackAction.update e)) = (f, TrackAction.notFound)
    rw [h2]
  · intro store files
    induction files with
    | nil => rfl
    | cons f rest ih =>
      show ((trackStep store f) :: track_meta_plan store rest).map Prod.fst = f :: rest
      rw [List.map_cons, ih, trackStep_fst]

/-- Witness for C7: a missing id resolves to the not-found signal. -/
theorem filename_matching_safe_witness :
    get_entry [] ("x".toList) = none :=
  filename_matching_safe.2.1 [] ("x".toList) (by simp)

/-! ## Listing-file probing -/

theorem findSlotAux_some (ex : Nat → Bool) (n : Nat) :
    ∀ fuel attempt : Nat, attempt ≤ n → n ≤ 999 → n < attempt + fuel →
    ex n = false → (∀ m : Nat, attempt ≤ m → m < n → ex m = true) →
    findSlotAux ex fuel attempt = some n := by
  intro fuel
  induction fuel with
  | zero => intro attempt h1 _ h3 _ _; omega
  | succ f ih =>
    intro attempt h1 h2 h3 h4 h5
    by_cases he : attempt = n
    · subst he
      rw [findSlotAux, if_neg (by simp [h4])]
    · have hlt : attempt < n := Nat.lt_of_le_of_ne h1 he
      rw [findSlotAux, if_pos (h5 attempt le_rfl hlt), if_neg (by omega)]
      exact ih (attempt + 1) (by omega) h2 (by omega) h4
        (fun m hm hm2 => h5 m (by omega) hm2)

theorem findSlotAux_none (ex : Nat → Bool) :
    ∀ fuel attempt : Nat, attempt ≤ 999 →
    (∀ m : Nat, attempt ≤ m → m ≤ 999 → ex m = true) →
    findSlotAux ex fuel attempt = none := by
  intro fuel
  induction fuel with
  | zero => intro attempt _ _; rfl
  | succ f ih =>
    intro attempt h1 h2
    rw [findSlotAux, if_pos (h2 attempt le_rfl h1)]
    by_cases hb : attempt + 1 > 999
    · rw [if_pos hb]
    · rw [if_neg hb]
      exact ih (attempt + 1) (by omega) (fun m hm hm2 => h2 m (by omega) hm2)

/-- C8: the listing snapshot is written to the first name among
listing.000.txt, listing.001.txt, ... that does not yet exist — a folder in
which 000 and 001 are taken gets listing.002.txt — and when all names 000
through 999 exist the listing fetch raises for that playlist. -/
theorem listing_slot_spec :
    (∀ (ex : Nat → Bool) (n : Nat), n ≤ 999 → ex n = false →
        (∀ m : Nat, m < n → ex m = true) → find_slot ex = some n)
  ∧ (∀ ex : Nat → Bool, (∀ m : Nat, m ≤ 999 → ex m = true) → find_slot ex = none)
  ∧ find_slot (fun n => n == 0 || n == 1) = some 2
  ∧ listingName 2 = "listing.002.txt".toList := by
  refine ⟨?_, ?_, by decide, by decide⟩
  · intro ex n h1 h2 h3
    exact findSlotAux_some ex n 1000 0 (Nat.zero_le n) h1 (by omega) h2
      (fun m _ hm => h3 m hm)
  · intro ex h
    exact findSlotAux_none ex 1000 0 (by omega) (fun m _ hm => h m hm)

/-- Witness for C8: with 000, 001 and 002 taken the probe settles on 003. -/
theorem listing_slot_spec_witness :
    find_slot (fun n => decide (n < 3)) = some 3 :=
  listing_slot_spec.1 (fun n => decide (n < 3)) 3 (by omega) (by decide)
    (fun m hm => decide_eq_true hm)

/-! ## Aliasing in populate -/

theorem getq_set_self {α : Type} : ∀ (l : List α) (i : Nat) (a : α), i < l.length →
    (l.set i a)[i]? = some a := by
  intro l
  induction l with
  | nil => intro i a h; simp at h
  | cons x rest ih =>
    intro i a h
    cases i with
    | zero => simp
    | succ j =>
      rw [List.set_cons_succ, List.getElem?_cons_succ]
      exact ih j a (by simpa using h)

theorem getq_set_ne {α : Type} : ∀ (l : List α) (i j : Nat) (a : α), i ≠ j →
    (l.set i a)[j]? = l[j]? := by
  intro l
  induction l with
  | nil => intro i j a _; simp
  | cons x rest ih =>
    intro i j a hne
    cases i with
    | zero =>
      cases j with
      | zero => exact absurd rfl hne
      | succ k => rw [List.set_cons_zero, List.getElem?_cons_succ, List.getElem?_cons_succ]
    | succ i2 =>
      cases j with
      | zero => rw [List.set_cons_succ, List.getElem?_cons_zero, List.getElem?_cons_zero]
      | succ k =>
        rw [List.set_cons_succ, List.getElem?_cons_succ, List.getElem?_cons_succ]
        exact ih i2 k a (fun e => hne (by rw [e]))

theorem setPos_length (heap : List PyDict) (r p : Nat) :
    (setPos heap r p).length = heap.length := by
  rw [setPos]
  cases heap[r]? with
  | none => rfl
  | some d => simp

theorem setPos_get_self (heap : List PyDict) (r p : Nat) (hr : r < heap.length) :
    ∃ d : PyDict, heap[r]? = some d
      ∧ (setPos heap r p)[r]? = some { d with pos := some p } := by
  rcases hd : heap[r]? with _ | d
  · have h2 := List.getElem?_eq_getElem hr
    rw [hd] at h2
    exact absurd h2 (by simp)
  · refine ⟨d, rfl, ?_⟩
    rw [setPos, hd]
    exact getq_set_self heap r _ hr

theorem setPos_get_ne (heap : List PyDict) (r p q : Nat) (h : r ≠ q) :
    (setPos heap r p)[q]? = heap[q]? := by
  rw [setPos]
  cases hd : heap[r]? with
  | none => rfl
  | some d => exact getq_set_ne heap r q _ h

theorem populateRefs_pos_preserved :
    ∀ (refs : List Nat) (heap : List PyDict) (store : List (Str × Nat)) (i r : Nat)
      (d : PyDict), heap[r]? = some d → d.pos.isSome = true →
    ∃ d2 : PyDict, (populateRefs heap store i refs).1[r]? = some d2
      ∧ d2.pos.isSome = true := by
  intro refs
  induction refs with
  | nil => intro heap store i r d hd hp; exact ⟨d, hd, hp⟩
  | cons x rest ih =>
    intro heap store i r d hd hp
    simp only [populateRefs]
    by_cases hxr : x = r
    · subst hxr
      have hx : x < heap.length := by
        by_contra hcon
        have h2 := hd
        rw [List.getElem?_eq_none (by omega)] at h2
        exact Option.noConfusion h2
      obtain ⟨d0, hd0, hset⟩ := setPos_get_self heap x (i + 1) hx
      exact ih _ _ _ x _ hset rfl
    · exact ih _ _ _ r d (by rw [setPos_get_ne heap x (i + 1) r hxr]; exact hd) hp

theorem populateRefs_gains_pos :
    ∀ (refs : List Nat) (heap : List PyDict) (store : List (Str × Nat)) (i : Nat),
    (∀ r ∈ refs, r < heap.length) →
    ∀ r ∈ refs, ∃ d : PyDict,
      (populateRefs heap store i refs).1[r]? = some d ∧ d.pos.isSome = true := by
  intro refs
  induction refs with
  | nil => intro heap store i _ r hr; simp at hr
  | cons x rest ih =>
    intro heap store i hv r hr
    simp only [populateRefs]
    rcases List.mem_cons.mp hr with h1 | h2
    · subst h1
      obtain ⟨d0, hd0, hset⟩ := setPos_get_self heap r (i + 1) (hv r hr)
      exact populateRefs_pos_preserved rest _ _ _ r _ hset rfl
    · exact ih _ _ _
        (fun q hq => by rw [setPos_length]; exact hv q (List.mem_cons_of_mem _ hq)) r h2

theorem mem_dictInsertRef (store : List (Str × Nat)) (kid : Str) (r : Nat) (p : Str × Nat)
    (h : p ∈ dictInsertRef store kid r) : p ∈ store ∨ p.2 = r := by
  rw [dictInsertRef] at h
  by_cases hc : store.any (fun x => x.1 == kid) = true
  · rw [if_pos hc] at h
    rcases List.mem_map.mp h with ⟨q, hq, he⟩
    by_cases hqk : (q.1 == kid) = true
    · rw [if_pos hqk] at he
      right
      rw [← he]
    · rw [if_neg hqk] at he
      left
      rw [← he]
      exact hq
  · rw [if_neg hc] at h
    rcases List.mem_append.mp h with h1 | h1
    · exact Or.inl h1
    · right
      simp only [List.mem_singleton] at h1
      rw [h1]

theorem populateRefs_store_refs :
    ∀ (refs : List Nat) (heap : List PyDict) (store : List (Str × Nat)) (i : Nat)
      (p : Str × Nat), p ∈ (populateRefs heap store i refs).2 → p ∈ store ∨ p.2 ∈ refs := by
  intro refs
  induction refs with
  | nil => intro heap store i p hp; exact Or.inl hp
  | cons x rest ih =>
    intro heap store i p hp
    simp only [populateRefs] at hp
    rcases ih _ _ _ p hp with h1 | h1
    · rcases mem_dictInsertRef _ _ _ p h1 with h2 | h2
      · exact Or.inl h2
      · exact Or.inr (by rw [h2]; exact List.mem_cons_self _ _)
    · exact Or.inr (List.mem_cons_of_mem _ h1)

theorem populateRefs_untouched :
    ∀ (refs : List Nat) (heap : List PyDict) (store : List (Str × Nat)) (i r : Nat),
    r ∉ refs → (populateRefs heap store i refs).1[r]? = heap[r]? := by
  intro refs
  induction refs with
  | nil => intro heap store i r _; rfl
  | cons x rest ih =>
    intro heap store i r hr
    simp only [populateRefs]
    rw [ih _ _ _ r (fun hm => hr (List.mem_cons_of_mem _ hm))]
    exact setPos_get_ne heap x (i + 1) r (fun e => hr (e ▸ List.mem_cons_self _ _))

/-- C10: populate mutates its argument in place.  At the heap level, every
dict object the caller passed in (by reference) has a "pos" key after the
call, the store maps ids to the very same references that were passed in
(aliases, not copies) — so later mutations through the store are visible
through the caller's records — and no object outside the passed references
is touched. -/
theorem populate_mutates_in_place (heap : List PyDict) (store : List (Str × Nat))
    (refs : List Nat) (hvalid : ∀ r ∈ refs, r < heap.length) :
    (∀ r ∈ refs, ∃ d : PyDict,
        (populateRefs heap store 0 refs).1[r]? = some d ∧ d.pos.isSome = true)
  ∧ (∀ p ∈ (populateRefs heap store 0 refs).2, p ∈ store ∨ p.2 ∈ refs)
  ∧ (∀ r : Nat, r ∉ refs → (populateRefs heap store 0 refs).1[r]? = heap[r]?) :=
  ⟨populateRefs_gains_pos refs heap store 0 hvalid,
   fun p hp => populateRefs_store_refs refs heap store 0 p hp,
   fun r hr => populateRefs_untouched refs heap store 0 r hr⟩

/-- Witness for C10 at a one-object heap. -/
theorem populate_mutates_in_place_witness :
    ∃ d : PyDict, (populateRefs [⟨"a".toList, "t".toList, none⟩] [] 0 [0]).1[0]? = some d
      ∧ d.pos.isSome = true :=
  (populate_mutates_in_place [⟨"a".toList, "t".toList, none⟩] [] [0] (by decide)).1 0
    (by decide)
